import Mathlib

set_option maxHeartbeats 1000000

/-
Verification of the experience-replay subsystem
(torchrl/data/replay_buffers/replay_buffers.py): the circular storage ring
(ReplayBuffer), the prioritized buffer (PrioritizedReplayBuffer and its
TensorDict wrapper), and, modelled from the spec where the repository's
Python sources only import them, the two segment trees from torchrl._torchrl.

Payloads are opaque to the buffer; the embedding keeps them as a type
parameter (instantiated at Nat in concrete runs).  Python floats are
idealised as real numbers; machine integers are Nat (all the index and
length arithmetic of the source stays far from any overflow).  Calls that
can raise return a sum: `Sum.inl s` is a raised exception leaving the
object in state `s` (Python mutates in place, so a raise can leave a
partially updated object), `Sum.inr (ret, s)` is a normal return.
-/

/-- The circular storage ring owned by `ReplayBuffer`: the backing list
`self._storage`, the fixed `self._capacity` and the write cursor
`self._cursor`. -/
structure RB (α : Type) where
  storage : List α
  capacity : Nat
  cursor : Nat
  deriving DecidableEq

/-- The state built by `ReplayBuffer.__init__` for a positive capacity:
empty storage, cursor 0. -/
def RB.fresh (α : Type) (c : Nat) : RB α := ⟨[], c, 0⟩

/-- Sequential in-place writes, mirroring the Python loops
`for i, v in enumerate(vs): storage[pos + i] = v` inside
`ReplayBuffer.extend`: one element at a time at consecutive positions.
A write at a position at or beyond the current length raises IndexError;
`Sum.inl` then returns the partially mutated list (the writes made before
the failing one are kept, as in Python). -/
def writeSeq {α : Type} : List α → Nat → List α → Sum (List α) (List α)
  | l, _, [] => Sum.inr l
  | l, i, v :: vs => if i < l.length then writeSeq (l.set i v) (i + 1) vs else Sum.inl l

/-- `ReplayBuffer.add`: stores at the cursor (appending while the list is
still short, overwriting otherwise), returns the old cursor and advances it
modulo capacity.  With capacity 0 the append has already happened when
`% 0` raises ZeroDivisionError, hence the mutated `Sum.inl` state. -/
def RB.add {α : Type} (s : RB α) (x : α) : Sum (RB α) (Nat × RB α) :=
  let st := if s.storage.length ≤ s.cursor then s.storage ++ [x] else s.storage.set s.cursor x
  if s.capacity = 0 then Sum.inl { s with storage := st }
  else Sum.inr (s.cursor, { s with storage := st, cursor := (s.cursor + 1) % s.capacity })

/-- The state after `ReplayBuffer.add`, whether or not it raised. -/
def RB.addTotal {α : Type} (s : RB α) (x : α) : RB α :=
  match RB.add s x with
  | Sum.inl t => t
  | Sum.inr (_, t) => t

/-- Adding a batch one element at a time, in order: the reference behaviour
the spec compares `extend` against. -/
def RB.addList {α : Type} (s : RB α) (data : List α) : RB α :=
  data.foldl RB.addTotal s

/-- `ReplayBuffer.extend`: the four-way branch of the source, kept branch
for branch.  Returns the written slot indices (numpy arange blocks) and the
new state, or `Sum.inl` for a raise: the empty batch raises with nothing
changed, and an out-of-bounds write inside a wrap loop raises with the
storage partially overwritten and the cursor not yet advanced. -/
def RB.extend {α : Type} (s : RB α) (data : List α) : Sum (RB α) (List Nat × RB α) :=
  if data.length = 0 then Sum.inl s
  else
    let b := data.length
    let curSize := s.storage.length
    if curSize + b ≤ s.capacity then
      Sum.inr (List.range' curSize b, ⟨s.storage ++ data, s.capacity, (s.cursor + b) % s.capacity⟩)
    else if curSize < s.capacity then
      let d := s.capacity - curSize
      match writeSeq (s.storage ++ data.take d) 0 (data.drop d) with
      | Sum.inl q => Sum.inl ⟨q, s.capacity, s.cursor⟩
      | Sum.inr st => Sum.inr (List.range' curSize d ++ List.range' 0 (b - d), ⟨st, s.capacity, b - d⟩)
    else if s.cursor + b ≤ s.capacity then
      match writeSeq s.storage s.cursor data with
      | Sum.inl q => Sum.inl ⟨q, s.capacity, s.cursor⟩
      | Sum.inr st => Sum.inr (List.range' s.cursor b, ⟨st, s.capacity, (s.cursor + b) % s.capacity⟩)
    else
      let d := s.capacity - s.cursor
      match writeSeq s.storage s.cursor (data.take d) with
      | Sum.inl q => Sum.inl ⟨q, s.capacity, s.cursor⟩
      | Sum.inr st1 =>
        match writeSeq st1 0 (data.drop d) with
        | Sum.inl q => Sum.inl ⟨q, s.capacity, s.cursor⟩
        | Sum.inr st2 =>
          Sum.inr (List.range' s.cursor d ++ List.range' 0 (b - d), ⟨st2, s.capacity, b - d⟩)

/-- `ReplayBuffer.__getitem__` with a single int index: Python list
indexing, so a negative index first has the length added to it, and an
index still outside `[0, len)` raises IndexError (`none`). -/
def RB.getItem {α : Type} (s : RB α) (i : Int) : Option α :=
  let n : Int := s.storage.length
  let j : Int := if i < 0 then i + n else i
  if 0 ≤ j ∧ j < n then s.storage.get? j.toNat else none

/-- The ring occupancy invariant of the spec: after `T` successful payload
writes into a capacity-`c` buffer, the length is `min T c` and the cursor
is `T mod c`. -/
def RBCanonical {α : Type} (c T : Nat) (s : RB α) : Prop :=
  s.capacity = c ∧ s.storage.length = min T c ∧ s.cursor = T % c

/-- The fields `ReplayBuffer.__init__` sets, with the capacity kept as the
Python int it receives: the constructor stores `size` without any
validation. -/
structure RBRaw (α : Type) where
  storage : List α
  capacity : Int
  cursor : Nat
  deriving DecidableEq

/-- `ReplayBuffer.__init__`: no check on `size` appears anywhere in it, so
construction always succeeds (`none` would be a raised exception). -/
def ReplayBufferMk (α : Type) (size : Int) : Option (RBRaw α) := some ⟨[], size, 0⟩

/-- The extra fields `PrioritizedReplayBuffer.__init__` sets on top of the
ring. -/
structure PRBRaw (α : Type) where
  rb : RBRaw α
  alpha : ℝ
  beta : ℝ
  eps : ℝ
  maxPriority : ℝ

/-- `PrioritizedReplayBuffer.__init__`: runs the ring constructor (which
never fails), then raises ValueError iff `alpha ≤ 0` or `beta < 0`; `size`
itself is never validated in the Python sources.  The segment-tree
constructors it calls live in `torchrl._torchrl`, outside the repository's
Python files; modelled from the spec (section 4.1), which has them accept a
fixed leaf capacity with no validation of their own. -/
noncomputable def PrioritizedReplayBufferMk (α : Type) (size : Int) (a b e : ℝ) :
    Option (PRBRaw α) :=
  if a ≤ 0 then none
  else if b < 0 then none
  else some ⟨⟨[], size, 0⟩, a, b, e, 1⟩

/-- A priority argument as `PrioritizedReplayBuffer` receives it: a Python
float (also what numpy power returns on a scalar, which still passes
`isinstance(priority, float)`), or an array.  `none` at the call site is
the omitted argument. -/
inductive PVal : Type
  | scalar (v : ℝ)
  | arr (vs : List ℝ)

/-- `np.max` over a priority argument; `none` is the ValueError numpy
raises on an empty array. -/
def PVal.npMax : PVal → Option ℝ
  | PVal.scalar v => some v
  | PVal.arr [] => none
  | PVal.arr (v :: vs) => some (vs.foldl max v)

/-- `np.power(priority + eps, alpha)` applied elementwise: the stored
priority transform of the source. -/
noncomputable def PVal.toRho (p : PVal) (eps a : ℝ) : PVal :=
  match p with
  | PVal.scalar v => PVal.scalar ((v + eps) ^ a)
  | PVal.arr vs => PVal.arr (vs.map fun v => (v + eps) ^ a)

/-- Modelled from the spec: the segment trees live in `torchrl._torchrl`,
outside the repository's Python files.  Section 4.1 of the spec gives their
observable leaf behaviour — `set(i, v)` writes leaf `i`, vectorized `set`
writes each leaf once with the last write winning, and unused leaves hold
the aggregate identity (0 for the sum tree, plus infinity for the min
tree).  A tree is embedded as its leaf map; `none` is an unwritten leaf,
standing for the respective identity. -/
def treeWrite (t : Nat → Option ℝ) (idxs : List Nat) (p : PVal) : Nat → Option ℝ :=
  match p with
  | PVal.scalar v => idxs.foldl (fun u i => Function.update u i (some v)) t
  | PVal.arr [v] => idxs.foldl (fun u i => Function.update u i (some v)) t
  | PVal.arr vs => (idxs.zip vs).foldl (fun u iv => Function.update u iv.1 (some iv.2)) t

/-- `PrioritizedReplayBuffer` state: the ring plus `_alpha`, `_beta`,
`_eps`, the two segment trees (leaf maps, see `treeWrite`) and
`_max_priority`. -/
structure PRB (α : Type) where
  rb : RB α
  alpha : ℝ
  beta : ℝ
  eps : ℝ
  sumTree : Nat → Option ℝ
  minTree : Nat → Option ℝ
  maxPriority : ℝ

/-- The state `PrioritizedReplayBuffer.__init__` builds for a positive
capacity and valid `alpha`, `beta`: empty ring, empty trees,
`_max_priority = 1.0`. -/
def PRB.fresh (α : Type) (c : Nat) (a b e : ℝ) : PRB α :=
  ⟨RB.fresh α c, a, b, e, fun _ => none, fun _ => none, 1⟩

/-- The state after a `PrioritizedReplayBuffer` call that returns indices,
whether it raised (`Sum.inl`) or returned (`Sum.inr`). -/
def PRB.postState {α : Type} : Sum (PRB α) (List Nat × PRB α) → PRB α
  | Sum.inl s => s
  | Sum.inr (_, s) => s

/-- The tail of `PrioritizedReplayBuffer._add_or_extend` once the ring
operation has returned indices `idx` and ring state `r`: validate that the
stored priority `rho` is a scalar, has length 1, or matches the written
indices, then write it into both trees.  A failed validation (the
RuntimeError of the source; for `add`, whose index is a single int, the
TypeError from `len(index)`, raised under exactly the same condition since
`idx` then has length 1) raises after the ring write and before any tree
write. -/
noncomputable def PRB.coreFinish {α : Type} (s : PRB α) (rho : PVal) (idx : List Nat)
    (r : RB α) : Sum (PRB α) (List Nat × PRB α) :=
  match rho with
  | PVal.scalar _ =>
    Sum.inr (idx,
      { s with
          rb := r
          sumTree := treeWrite s.sumTree idx rho
          minTree := treeWrite s.minTree idx rho })
  | PVal.arr vs =>
    if vs.length = 1 ∨ vs.length = idx.length then
      Sum.inr (idx,
        { s with
            rb := r
            sumTree := treeWrite s.sumTree idx rho
            minTree := treeWrite s.minTree idx rho })
    else Sum.inl { s with rb := r }

/-- The shared body of `PrioritizedReplayBuffer._add_or_extend` after the
priority has been turned into a stored priority `rho`: run the ring
operation, then validate and write the trees (`PRB.coreFinish`).  `data`
is `Sum.inl` for `add` (single payload, single int index — kept as a
singleton index list) and `Sum.inr` for `extend`. -/
noncomputable def PRB.core {α : Type} (s : PRB α) (rho : PVal) (data : Sum α (List α)) :
    Sum (PRB α) (List Nat × PRB α) :=
  match data with
  | Sum.inl x =>
    match RB.add s.rb x with
    | Sum.inl r => Sum.inl { s with rb := r }
    | Sum.inr (i, r) => PRB.coreFinish s rho [i] r
  | Sum.inr xs =>
    match RB.extend s.rb xs with
    | Sum.inl r => Sum.inl { s with rb := r }
    | Sum.inr (idx, r) => PRB.coreFinish s rho idx r

/-- `PrioritizedReplayBuffer._add_or_extend`: with an explicit priority,
`np.max` of it (raising on an empty array before anything is touched)
raises `_max_priority` first and the stored-priority transform is applied;
with the argument omitted, the default priority
`(_max_priority + eps) ** alpha` is used and `_max_priority` stays as it
is.  Then `PRB.core` runs the ring operation, the validation and the tree
writes, in that order. -/
noncomputable def PRB.addOrExtend {α : Type} (s : PRB α) (data : Sum α (List α))
    (pr : Option PVal) : Sum (PRB α) (List Nat × PRB α) :=
  match pr with
  | some (PVal.arr []) => Sum.inl s
  | some p =>
    let s1 := { s with maxPriority := max s.maxPriority (p.npMax.getD 0) }
    PRB.core s1 (p.toRho s.eps s.alpha) data
  | none => PRB.core s (PVal.scalar ((s.maxPriority + s.eps) ^ s.alpha)) data

/-- `PrioritizedReplayBuffer.add`. -/
noncomputable def PRB.add {α : Type} (s : PRB α) (x : α) (pr : Option PVal) :
    Sum (PRB α) (List Nat × PRB α) :=
  PRB.addOrExtend s (Sum.inl x) pr

/-- `PrioritizedReplayBuffer.extend`. -/
noncomputable def PRB.extend {α : Type} (s : PRB α) (xs : List α) (pr : Option PVal) :
    Sum (PRB α) (List Nat × PRB α) :=
  PRB.addOrExtend s (Sum.inr xs) pr

/-- The mutation performed by a validated `update_priority` call: raise
`_max_priority` to `np.max` of the raw priority, transform it with
`(priority + eps) ** alpha`, write the result into both trees. -/
noncomputable def PRB.upd {α : Type} (s : PRB α) (idxs : List Nat) (pr : PVal) : PRB α :=
  let s1 := { s with maxPriority := max s.maxPriority (pr.npMax.getD 0) }
  let rho := pr.toRho s.eps s.alpha
  { s1 with
      sumTree := treeWrite s1.sumTree idxs rho
      minTree := treeWrite s1.minTree idxs rho }

/-- `PrioritizedReplayBuffer.update_priority`: an int index takes a float
priority or a length-1 array (`.item()`); an array index takes a float or
an array of length 1 or of matching length.  No check on the sign of the
priority appears anywhere in this method.  `Sum.inl` is the RuntimeError
raised on a length mismatch (before any mutation), or numpy's ValueError
when `np.max` meets an empty array. -/
noncomputable def PRB.updatePriority {α : Type} (s : PRB α) (index : Sum Nat (List Nat))
    (pr : PVal) : Sum (PRB α) (PRB α) :=
  match index, pr with
  | Sum.inl i, PVal.scalar p => Sum.inr (PRB.upd s [i] (PVal.scalar p))
  | Sum.inl i, PVal.arr [p] => Sum.inr (PRB.upd s [i] (PVal.scalar p))
  | Sum.inl _, PVal.arr _ => Sum.inl s
  | Sum.inr is, PVal.scalar p => Sum.inr (PRB.upd s is (PVal.scalar p))
  | Sum.inr _, PVal.arr [] => Sum.inl s
  | Sum.inr is, PVal.arr ps =>
    if ps.length = 1 ∨ ps.length = is.length then Sum.inr (PRB.upd s is (PVal.arr ps))
    else Sum.inl s

/-- `TensorDictPrioritizedReplayBuffer.update_priority`: reads the priority
values and indices out of the tensordict, raises RuntimeError if any
priority is negative, and otherwise delegates to the parent
`update_priority` with tensor (array) index and priority. -/
noncomputable def PRB.tdUpdatePriority {α : Type} (s : PRB α) (idxs : List Nat)
    (ps : List ℝ) : Sum (PRB α) (PRB α) :=
  if ∃ p ∈ ps, p < 0 then Sum.inl s
  else PRB.updatePriority s (Sum.inr idxs) (PVal.arr ps)

/-- `sum_tree.query(0, capacity)`: the sum of all leaves, unwritten leaves
contributing the identity 0 (spec section 4.1; the tree itself lives
outside the Python sources). -/
noncomputable def pSumQuery {α : Type} (s : PRB α) : ℝ :=
  ∑ i in Finset.range s.rb.capacity, ((s.sumTree i).getD 0)

/-- One step of the min-tree range fold. -/
def minStep (acc : Option ℝ) (v : Option ℝ) : Option ℝ :=
  match v, acc with
  | none, a => a
  | some x, none => some x
  | some x, some m => some (min m x)

/-- `min_tree.query(0, capacity)`: the minimum over the written leaves;
`none` when no leaf is written, standing for the identity plus infinity
(spec section 4.1). -/
def minQuery {α : Type} (s : PRB α) : Option ℝ :=
  (List.range s.rb.capacity).foldl (fun acc i => minStep acc (s.minTree i)) none

/-- Modelled from the spec: `SumSegmentTree.scan_lower_bound` (in
`torchrl._torchrl`, outside the Python sources) returns the smallest leaf
index whose prefix sum strictly exceeds the mass, one past the end when no
prefix does (the caller clamps).  Embedded in running-remainder form over
the leaves. -/
noncomputable def scanLB (leaf : Nat → ℝ) : Nat → ℝ → Nat → Nat
  | 0, _, i => i
  | fuel + 1, m, i => if m < leaf i then i else scanLB leaf fuel (m - leaf i) (i + 1)

open Classical in
/-- `PrioritizedReplayBuffer._sample` for one drawn mass: check
`p_sum > 0` and `p_min > 0` (a query of `none`, plus infinity, passes the
`p_min ≤ 0` check as in the source), scan, clamp the index to
`len(storage) - 1`, gather the payload and compute the weight
`(sum_tree[index] / p_min) ** (-beta)`.  The base of the power when the
min query is `none` is Python's `x / inf = 0.0`; that corner is
unreachable once any leaf is written.  `none` is a raise (failed check, or
IndexError when the storage is empty). -/
noncomputable def PRB.sampleOne {α : Type} (s : PRB α) (mass : ℝ) : Option (α × ℝ × Nat) :=
  let pSum := pSumQuery s
  if pSum ≤ 0 then none
  else if (match minQuery s with | some m => m ≤ 0 | none => False) then none
  else
    let iRaw := scanLB (fun i => (s.sumTree i).getD 0) s.rb.capacity mass 0
    let iCl := min iRaw (s.rb.storage.length - 1)
    let w := ((match minQuery s with
                | some m => ((s.sumTree iCl).getD 0) / m
                | none => 0) : ℝ) ^ (-s.beta)
    match s.rb.storage.get? iCl with
    | none => none
    | some a => some (a, w, iCl)

/-- A two-element prioritized buffer built through the API: capacity 2,
alpha 1, beta `b`, eps 0, then `add(10, priority=1)` and
`add(20, priority=2)`.  Its stored priorities are `(1+0)**1 = 1` at slot 0
and `(2+0)**1 = 2` at slot 1. -/
noncomputable def sampleDemoBeta (b : ℝ) : PRB Nat :=
  PRB.postState (PRB.add (PRB.postState (PRB.add (PRB.fresh Nat 2 1 b 0) 10
    (some (PVal.scalar 1)))) 20 (some (PVal.scalar 2)))

/-- The leaf map both trees of `sampleDemoBeta` hold. -/
noncomputable def demoTree : Nat → Option ℝ :=
  Function.update (Function.update (fun _ => none) 0 (some ((1 + 0 : ℝ) ^ (1 : ℝ)))) 1
    (some ((2 + 0 : ℝ) ^ (1 : ℝ)))

/-- `sampleDemoBeta` written out field by field. -/
noncomputable def sampleDemoN (b : ℝ) : PRB Nat :=
  ⟨⟨[10, 20], 2, 0⟩, 1, b, 0, demoTree, demoTree, max (max 1 1) 2⟩

/-- Length is preserved by a successful run of sequential writes. -/
theorem writeSeq_inr_length {α : Type} (vs : List α) :
    ∀ (l l' : List α) (i : Nat), writeSeq l i vs = Sum.inr l' → l'.length = l.length := by
  induction vs with
  | nil =>
    intro l l' i h
    simp only [writeSeq] at h
    cases h
    rfl
  | cons v vs ih =>
    intro l l' i h
    simp only [writeSeq] at h
    split at h
    · have := ih _ _ _ h
      simpa using this
    · cases h

/-- Sequential writes succeed when they stay in bounds. -/
theorem writeSeq_inr_of_le {α : Type} (vs : List α) :
    ∀ (l : List α) (i : Nat), i + vs.length ≤ l.length →
      ∃ l', writeSeq l i vs = Sum.inr l' := by
  induction vs with
  | nil =>
    intro l i _
    exact ⟨l, rfl⟩
  | cons v vs ih =>
    intro l i h
    have hi : i < l.length := by simp at h; omega
    have h2 : (i + 1) + vs.length ≤ (l.set i v).length := by
      simp only [List.length_set]; simp at h; omega
    obtain ⟨l', hl'⟩ := ih (l.set i v) (i + 1) h2
    exact ⟨l', by simp only [writeSeq, if_pos hi]; exact hl'⟩

/-- A successful run of sequential writes was in bounds (or empty). -/
theorem writeSeq_le_of_inr {α : Type} (vs : List α) :
    ∀ (l l' : List α) (i : Nat), writeSeq l i vs = Sum.inr l' →
      vs = [] ∨ i + vs.length ≤ l.length := by
  induction vs with
  | nil => intro l l' i _; exact Or.inl rfl
  | cons v vs ih =>
    intro l l' i h
    simp only [writeSeq] at h
    split at h
    · rcases ih _ _ _ h with h2 | h2
      · subst h2
        right
        simp only [List.length_cons, List.length_nil]
        omega
      · right
        simp only [List.length_set] at h2
        simp only [List.length_cons]
        omega
    · cases h

/-- `add` on a nonempty-capacity buffer never raises: it returns the old
cursor and the updated state. -/
theorem add_eq_inr {α : Type} (s : RB α) (x : α) (hc : s.capacity ≠ 0) :
    RB.add s x = Sum.inr (s.cursor, RB.addTotal s x) ∧
      RB.addTotal s x =
        ⟨if s.storage.length ≤ s.cursor then s.storage ++ [x] else s.storage.set s.cursor x,
         s.capacity, (s.cursor + 1) % s.capacity⟩ := by
  constructor
  · simp only [RB.addTotal, RB.add, if_neg hc]
  · simp only [RB.addTotal, RB.add, if_neg hc]

/-- A single `add` into a canonical ring state keeps it canonical. -/
theorem add_canonical {α : Type} (c T : Nat) (hc : 0 < c) (s : RB α) (x : α)
    (hs : RBCanonical c T s) : RBCanonical c (T + 1) (RB.addTotal s x) := by
  obtain ⟨hcap, hlen, hcur⟩ := hs
  have hc0 : s.capacity ≠ 0 := by omega
  obtain ⟨-, ht⟩ := add_eq_inr s x hc0
  by_cases hT : T < c
  · have hm : T % c = T := Nat.mod_eq_of_lt hT
    have hle : s.storage.length ≤ s.cursor := by rw [hlen, hcur, hm]; omega
    rw [ht, if_pos hle]
    refine ⟨hcap, ?_, ?_⟩
    · simp only [List.length_append, List.length_cons, List.length_nil, hlen]
      omega
    · rw [hcur, hcap, hm]
  · have hTc : c ≤ T := by omega
    have hcurlt : s.cursor < s.storage.length := by
      rw [hlen, hcur]
      have := Nat.mod_lt T hc
      omega
    rw [ht, if_neg (by omega)]
    refine ⟨hcap, ?_, ?_⟩
    · simp only [List.length_set, hlen]
      omega
    · rw [hcur, hcap, Nat.mod_add_mod]

/-- A sequence of single `add`s keeps a canonical ring state canonical. -/
theorem addList_canonical {α : Type} (c : Nat) (hc : 0 < c) :
    ∀ (data : List α) (T : Nat) (s : RB α), RBCanonical c T s →
      RBCanonical c (T + data.length) (RB.addList s data) := by
  intro data
  induction data with
  | nil => intro T s hs; simpa [RB.addList] using hs
  | cons v vs ih =>
    intro T s hs
    have h1 := add_canonical c T hc s v hs
    have h2 := ih (T + 1) (RB.addTotal s v) h1
    show RBCanonical c (T + (v :: vs).length) (RB.addList (RB.addTotal s v) vs)
    have : T + (v :: vs).length = T + 1 + vs.length := by
      simp only [List.length_cons]; omega
    rw [this]
    exact h2

/-- On a full ring, a run of in-bounds `add`s is exactly a run of
sequential overwrites starting at the cursor. -/
theorem addList_overwrite {α : Type} (c : Nat) :
    ∀ (vs st : List α) (u : Nat), 0 < c → st.length = c → u < c → u + vs.length ≤ c →
      ∃ st2, writeSeq st u vs = Sum.inr st2 ∧
        RB.addList ⟨st, c, u⟩ vs = ⟨st2, c, (u + vs.length) % c⟩ := by
  intro vs
  induction vs with
  | nil =>
    intro st u hc hlen hu _
    exact ⟨st, rfl, by simp [RB.addList, Nat.mod_eq_of_lt hu]⟩
  | cons v vs ih =>
    intro st u hc hlen hu hle
    have hadd : RB.addTotal ⟨st, c, u⟩ v = ⟨st.set u v, c, (u + 1) % c⟩ := by
      have h1 : ¬ ((⟨st, c, u⟩ : RB α).storage.length ≤ (⟨st, c, u⟩ : RB α).cursor) := by
        simp only [hlen]; omega
      obtain ⟨-, ht⟩ := add_eq_inr (⟨st, c, u⟩ : RB α) v (by simp; omega)
      rw [ht, if_neg h1]
    have hw : writeSeq st u (v :: vs) = writeSeq (st.set u v) (u + 1) vs := by
      simp only [writeSeq]
      rw [if_pos (by omega)]
    cases vs with
    | nil =>
      refine ⟨st.set u v, by rw [hw]; rfl, ?_⟩
      show RB.addList (RB.addTotal ⟨st, c, u⟩ v) [] = _
      rw [hadd]
      simp [RB.addList]
    | cons w ws =>
      have hu1 : u + 1 < c := by
        simp only [List.length_cons] at hle; omega
      obtain ⟨st2, hw2, hal⟩ := ih (st.set u v) (u + 1) hc (by simp [hlen]) hu1
        (by simp only [List.length_set, List.length_cons] at hle ⊢; omega)
      refine ⟨st2, by rw [hw, hw2], ?_⟩
      show RB.addList (RB.addTotal ⟨st, c, u⟩ v) (w :: ws) = _
      rw [hadd, Nat.mod_eq_of_lt hu1, hal]
      congr 1
      simp only [List.length_cons]
      congr 1
      omega

/-- On a ring that is still filling (cursor at the length), a run of
`add`s that stays within capacity appends. -/
theorem addList_append_free {α : Type} (c : Nat) :
    ∀ (vs st : List α), 0 < c → st.length < c → st.length + vs.length ≤ c →
      RB.addList ⟨st, c, st.length⟩ vs = ⟨st ++ vs, c, (st.length + vs.length) % c⟩ := by
  intro vs
  induction vs with
  | nil =>
    intro st hc hlt _
    simp [RB.addList, Nat.mod_eq_of_lt hlt]
  | cons v vs ih =>
    intro st hc hlt hle
    have hadd : RB.addTotal ⟨st, c, st.length⟩ v = ⟨st ++ [v], c, (st.length + 1) % c⟩ := by
      obtain ⟨-, ht⟩ := add_eq_inr (⟨st, c, st.length⟩ : RB α) v (by simp; omega)
      rw [ht, if_pos (le_refl _)]
    cases vs with
    | nil =>
      show RB.addList (RB.addTotal ⟨st, c, st.length⟩ v) [] = _
      rw [hadd]
      simp [RB.addList]
    | cons w ws =>
      have hlt1 : st.length + 1 < c := by
        simp only [List.length_cons] at hle; omega
      have hkey := ih (st ++ [v]) hc (by simp; omega)
        (by simp only [List.length_append, List.length_cons, List.length_nil] at hle ⊢; omega)
      show RB.addList (RB.addTotal ⟨st, c, st.length⟩ v) (w :: ws) = _
      rw [hadd, Nat.mod_eq_of_lt hlt1]
      have hlen1 : st.length + 1 = (st ++ [v]).length := by simp
      rw [show (⟨st ++ [v], c, st.length + 1⟩ : RB α) = ⟨st ++ [v], c, (st ++ [v]).length⟩ by
        rw [hlen1]]
      rw [hkey]
      congr 1
      · simp
      · simp only [List.length_append, List.length_cons, List.length_nil]
        congr 1
        omega

/-- Folding a batch splits at an append. -/
theorem addList_split {α : Type} (s : RB α) (l1 l2 : List α) :
    RB.addList s (l1 ++ l2) = RB.addList (RB.addList s l1) l2 := by
  simp [RB.addList, List.foldl_append]

/-- A successful `extend` from a canonical ring state produces the storage
of the same batch added one element at a time; the whole state matches
unless the wrap remainder is exactly the capacity (pre-cursor plus batch
size equal to twice the capacity), in which case the missing
`% capacity` of the source leaves the cursor at `capacity` where the
element-wise run leaves it at 0. -/
theorem extend_eq_addList {α : Type} (c T : Nat) (hc : 0 < c) (s : RB α) (data : List α)
    (idx : List Nat) (s' : RB α) (hs : RBCanonical c T s)
    (h : RB.extend s data = Sum.inr (idx, s')) :
    s'.storage = (RB.addList s data).storage ∧ s'.capacity = c ∧
      (s.cursor + data.length ≠ 2 * c → s' = RB.addList s data) ∧
      (s.cursor + data.length = 2 * c → s'.cursor = c) := by
  obtain ⟨st, cap, u⟩ := s
  simp only [RBCanonical] at hs
  obtain ⟨hcap, hlen, hcur⟩ := hs
  have hcap2 : c = cap := hcap.symm
  subst hcap2
  subst hcur
  dsimp only
  simp only [RB.extend] at h
  split at h
  · exact Sum.noConfusion h
  · rename_i hnil
    split at h
    · -- branch 1: fits without wrap
      rename_i h1
      have hT : T < c := by omega
      have hu : T % c = T := Nat.mod_eq_of_lt hT
      have hL : st.length = T := by omega
      have hst : (⟨st ++ data, c, (T % c + data.length) % c⟩ : RB α) = s' :=
        congrArg Prod.snd (Sum.inr.inj h)
      subst hst
      have hstate : (⟨st, c, T % c⟩ : RB α) = ⟨st, c, st.length⟩ := by rw [hu, hL]
      have hfree := addList_append_free c data st hc (by omega) (by omega)
      rw [hstate, hfree]
      refine ⟨rfl, rfl, fun _ => ?_, fun h2c => ?_⟩
      · congr 1
        rw [hu, hL]
      · dsimp only
        omega
    · rename_i h1
      split at h
      · -- branch 2: fills the free space then overwrites from 0
        rename_i h2
        have hT : T < c := by omega
        have hu : T % c = T := Nat.mod_eq_of_lt hT
        have hL : st.length = T := by omega
        split at h
        · exact Sum.noConfusion h
        · rename_i st2 heq
          have hst : (⟨st2, c, data.length - (c - st.length)⟩ : RB α) = s' :=
            congrArg Prod.snd (Sum.inr.inj h)
          subst hst
          have htlen : (data.take (c - st.length)).length = c - st.length := by
            simp only [List.length_take]
            omega
          have hdlen : (data.drop (c - st.length)).length
              = data.length - (c - st.length) := by
            simp only [List.length_drop]
          have hdnonnil : data.drop (c - st.length) ≠ [] := by
            intro hcon
            rw [hcon] at hdlen
            simp only [List.length_nil] at hdlen
            omega
          have hbd : data.length - (c - st.length) ≤ c := by
            rcases writeSeq_le_of_inr _ _ _ _ heq with hcon | hle2
            · exact absurd hcon hdnonnil
            · rw [hdlen] at hle2
              simp only [List.length_append, htlen] at hle2
              omega
          have hsplit : RB.addList ⟨st, c, T % c⟩ data
              = RB.addList (RB.addList ⟨st, c, T % c⟩ (data.take (c - st.length)))
                  (data.drop (c - st.length)) := by
            conv_lhs => rw [← List.take_append_drop (c - st.length) data]
            exact addList_split _ _ _
          have hstate : (⟨st, c, T % c⟩ : RB α) = ⟨st, c, st.length⟩ := by rw [hu, hL]
          have hfree := addList_append_free c (data.take (c - st.length)) st hc (by omega)
            (by rw [htlen]; omega)
          have hcfull : (st.length + (data.take (c - st.length)).length) % c = 0 := by
            rw [htlen]
            have hfull : st.length + (c - st.length) = c := by omega
            rw [hfull, Nat.mod_self]
          obtain ⟨st2x, hw2, hal⟩ := addList_overwrite c (data.drop (c - st.length))
            (st ++ data.take (c - st.length)) 0 hc
            (by simp only [List.length_append, htlen]; omega) hc
            (by rw [hdlen]; omega)
          have hst2 : st2x = st2 := Sum.inr.inj (hw2.symm.trans heq)
          subst hst2
          rw [hsplit, hstate, hfree, hcfull, hal]
          refine ⟨rfl, rfl, fun hne => ?_, fun h2c => ?_⟩
          · have hlt : data.length - (c - st.length) < c := by omega
            congr 1
            rw [Nat.zero_add, hdlen, Nat.mod_eq_of_lt hlt]
          · dsimp only
            omega
      · rename_i h2
        split at h
        · -- branch 3: already full, no wrap needed
          rename_i h3
          have hT : c ≤ T := by omega
          have hL : st.length = c := by omega
          have humod : T % c < c := Nat.mod_lt T hc
          split at h
          · exact Sum.noConfusion h
          · rename_i st2 heq
            have hst : (⟨st2, c, (T % c + data.length) % c⟩ : RB α) = s' :=
              congrArg Prod.snd (Sum.inr.inj h)
            subst hst
            obtain ⟨st2x, hw2, hal⟩ := addList_overwrite c data st (T % c) hc hL humod
              (by omega)
            have hst2 : st2x = st2 := Sum.inr.inj (hw2.symm.trans heq)
            subst hst2
            rw [hal]
            refine ⟨rfl, rfl, fun _ => rfl, fun h2c => ?_⟩
            omega
        · -- branch 4: already full, wrapping split
          rename_i h3
          have hT : c ≤ T := by omega
          have hL : st.length = c := by omega
          have humod : T % c < c := Nat.mod_lt T hc
          split at h
          · exact Sum.noConfusion h
          · rename_i st1 heq1
            split at h
            · exact Sum.noConfusion h
            · rename_i st2 heq2
              have hst : (⟨st2, c, data.length - (c - T % c)⟩ : RB α) = s' :=
                congrArg Prod.snd (Sum.inr.inj h)
              subst hst
              have htlen : (data.take (c - T % c)).length = c - T % c := by
                simp only [List.length_take]
                omega
              have hdlen : (data.drop (c - T % c)).length = data.length - (c - T % c) := by
                simp only [List.length_drop]
              have hdnonnil : data.drop (c - T % c) ≠ [] := by
                intro hcon
                rw [hcon] at hdlen
                simp only [List.length_nil] at hdlen
                omega
              have hst1len : st1.length = c := by
                rw [writeSeq_inr_length _ _ _ _ heq1, hL]
              have hbd : data.length - (c - T % c) ≤ c := by
                rcases writeSeq_le_of_inr _ _ _ _ heq2 with hcon | hle2
                · exact absurd hcon hdnonnil
                · rw [hdlen, hst1len] at hle2
                  omega
              have hsplit : RB.addList ⟨st, c, T % c⟩ data
                  = RB.addList (RB.addList ⟨st, c, T % c⟩ (data.take (c - T % c)))
                      (data.drop (c - T % c)) := by
                conv_lhs => rw [← List.take_append_drop (c - T % c) data]
                exact addList_split _ _ _
              obtain ⟨st1x, hw1, hal1⟩ := addList_overwrite c (data.take (c - T % c))
                st (T % c) hc hL humod (by rw [htlen]; omega)
              have hst1 : st1x = st1 := Sum.inr.inj (hw1.symm.trans heq1)
              subst hst1
              have hcfull : (T % c + (data.take (c - T % c)).length) % c = 0 := by
                rw [htlen]
                have hfull : T % c + (c - T % c) = c := by omega
                rw [hfull, Nat.mod_self]
              obtain ⟨st2x, hw2, hal2⟩ := addList_overwrite c (data.drop (c - T % c))
                st1x 0 hc hst1len hc (by rw [hdlen]; omega)
              have hst2 : st2x = st2 := Sum.inr.inj (hw2.symm.trans heq2)
              subst hst2
              rw [hsplit, hal1, hcfull, hal2]
              refine ⟨rfl, rfl, fun hne => ?_, fun h2c => ?_⟩
              · have hlt : data.length - (c - T % c) < c := by omega
                congr 1
                rw [Nat.zero_add, hdlen, Nat.mod_eq_of_lt hlt]
              · dsimp only
                omega

/-- A slot not in the written index list keeps its leaf under a broadcast
scalar tree write. -/
theorem treeWrite_scalar_notmem (v : ℝ) :
    ∀ (idxs : List Nat) (t : Nat → Option ℝ) (j : Nat), j ∉ idxs →
      (idxs.foldl (fun u i => Function.update u i (some v)) t) j = t j := by
  intro idxs
  induction idxs with
  | nil => intro t j _; rfl
  | cons i is ih =>
    intro t j hj
    have hne : j ≠ i := fun hcon => hj (hcon ▸ List.mem_cons_self i is)
    have hnotin : j ∉ is := fun hcon => hj (List.mem_cons_of_mem i hcon)
    show (is.foldl (fun u i => Function.update u i (some v)) (Function.update t i (some v))) j
        = t j
    rw [ih _ _ hnotin, Function.update_noteq hne]

/-- Every written slot holds the broadcast scalar after a vectorized tree
write. -/
theorem treeWrite_scalar_mem (v : ℝ) :
    ∀ (idxs : List Nat) (t : Nat → Option ℝ) (j : Nat), j ∈ idxs →
      (idxs.foldl (fun u i => Function.update u i (some v)) t) j = some v := by
  intro idxs
  induction idxs with
  | nil => intro t j hj; cases hj
  | cons i is ih =>
    intro t j hj
    show (is.foldl (fun u i => Function.update u i (some v)) (Function.update t i (some v))) j
        = some v
    by_cases hmem : j ∈ is
    · exact ih _ _ hmem
    · rcases List.mem_cons.mp hj with hji | hjs
      · rw [treeWrite_scalar_notmem v is _ _ hmem, hji, Function.update_same]
      · exact absurd hjs hmem

/-- A raise inside `PRB.coreFinish` (failed priority-length validation)
keeps the pre-call trees and configuration and the post-ring-write ring. -/
theorem coreFinish_inl {α : Type} (s : PRB α) (rho : PVal) (idx : List Nat) (r : RB α)
    (s' : PRB α) (h : PRB.coreFinish s rho idx r = Sum.inl s') : s' = { s with rb := r } := by
  rcases rho with v | vs
  · simp only [PRB.coreFinish] at h
    exact Sum.noConfusion h
  · simp only [PRB.coreFinish] at h
    split at h
    · exact Sum.noConfusion h
    · exact (Sum.inl.inj h).symm

/-- A successful `PRB.coreFinish` with a scalar priority returns the ring
indices and the state with both trees written. -/
theorem coreFinish_scalar_inr {α : Type} (s : PRB α) (v : ℝ) (idx : List Nat) (r : RB α)
    (idx' : List Nat) (s' : PRB α)
    (h : PRB.coreFinish s (PVal.scalar v) idx r = Sum.inr (idx', s')) :
    idx' = idx ∧ s' =
      { s with
          rb := r
          sumTree := treeWrite s.sumTree idx (PVal.scalar v)
          minTree := treeWrite s.minTree idx (PVal.scalar v) } := by
  simp only [PRB.coreFinish] at h
  have hpair := Sum.inr.inj h
  exact ⟨(congrArg Prod.fst hpair).symm, (congrArg Prod.snd hpair).symm⟩

/-- A raise inside `PRB.core` happens before the tree writes: both trees
(and the configuration) are unchanged. -/
theorem core_failure_preserves_trees {α : Type} (s : PRB α) (rho : PVal)
    (data : Sum α (List α)) (s' : PRB α) (h : PRB.core s rho data = Sum.inl s') :
    s'.sumTree = s.sumTree ∧ s'.minTree = s.minTree ∧ s'.alpha = s.alpha ∧
      s'.beta = s.beta ∧ s'.eps = s.eps := by
  rcases data with x | xs
  · simp only [PRB.core] at h
    split at h
    · have hs := Sum.inl.inj h
      subst hs
      exact ⟨rfl, rfl, rfl, rfl, rfl⟩
    · have hs := coreFinish_inl _ _ _ _ _ h
      subst hs
      exact ⟨rfl, rfl, rfl, rfl, rfl⟩
  · simp only [PRB.core] at h
    split at h
    · have hs := Sum.inl.inj h
      subst hs
      exact ⟨rfl, rfl, rfl, rfl, rfl⟩
    · have hs := coreFinish_inl _ _ _ _ _ h
      subst hs
      exact ⟨rfl, rfl, rfl, rfl, rfl⟩

/-- A successful `PRB.core` call with a scalar stored priority leaves the
configuration and `_max_priority` alone and writes that scalar to both
trees at every returned index. -/
theorem core_scalar_success {α : Type} (s : PRB α) (v : ℝ) (data : Sum α (List α))
    (idx : List Nat) (s' : PRB α)
    (h : PRB.core s (PVal.scalar v) data = Sum.inr (idx, s')) :
    s'.maxPriority = s.maxPriority ∧ s'.eps = s.eps ∧ s'.alpha = s.alpha ∧
      ∀ j ∈ idx, s'.sumTree j = some v ∧ s'.minTree j = some v := by
  rcases data with x | xs
  · simp only [PRB.core] at h
    split at h
    · exact Sum.noConfusion h
    · obtain ⟨hidx, hst⟩ := coreFinish_scalar_inr _ _ _ _ _ _ h
      subst hidx
      subst hst
      refine ⟨rfl, rfl, rfl, ?_⟩
      intro j hj
      exact ⟨treeWrite_scalar_mem v _ s.sumTree j hj,
             treeWrite_scalar_mem v _ s.minTree j hj⟩
  · simp only [PRB.core] at h
    split at h
    · exact Sum.noConfusion h
    · obtain ⟨hidx, hst⟩ := coreFinish_scalar_inr _ _ _ _ _ _ h
      subst hidx
      subst hst
      refine ⟨rfl, rfl, rfl, ?_⟩
      intro j hj
      exact ⟨treeWrite_scalar_mem v _ s.sumTree j hj,
             treeWrite_scalar_mem v _ s.minTree j hj⟩

/-- Claim C2 (the code violates the spec's ring-occupancy invariant):
a single successful `extend` of 8 distinct payloads into an empty
capacity-4 buffer returns normally but leaves the cursor at 4 — equal to
the capacity, while `8 mod 4 = 0` — because the overwrite branches of the
source set `self._cursor = batch_size - d` without the final
`% capacity`; a subsequent `add` then appends a fifth element, exceeding
the documented maximum size. -/
theorem extend_cursor_escapes_capacity :
    RB.extend (RB.fresh Nat 4) [1, 2, 3, 4, 5, 6, 7, 8]
        = Sum.inr ([0, 1, 2, 3, 0, 1, 2, 3], ⟨[5, 6, 7, 8], 4, 4⟩) ∧
      (4 : Nat) ≠ 8 % 4 ∧
      (RB.addTotal (⟨[5, 6, 7, 8], 4, 4⟩ : RB Nat) 9).storage = [5, 6, 7, 8, 9] ∧
      4 < (RB.addTotal (⟨[5, 6, 7, 8], 4, 4⟩ : RB Nat) 9).storage.length := by
  exact ⟨rfl, by decide, rfl, by decide⟩

/-- Claim C5: capacity 4, `extend([A,B,C,D,E])` (payloads rendered as
1..5) returns slots `[0,1,2,3,0]` and leaves storage `[E,B,C,D]`,
cursor 1, length 4. -/
theorem extend_capacity_four_scenario :
    RB.extend (RB.fresh Nat 4) [1, 2, 3, 4, 5] = Sum.inr ([0, 1, 2, 3, 0], ⟨[5, 2, 3, 4], 4, 1⟩)
      ∧ (⟨[5, 2, 3, 4], 4, 1⟩ : RB Nat).storage.length = 4 := by
  exact ⟨rfl, rfl⟩

/-- Claim C3 counterexample: `extend` of 8 payloads into an empty
capacity-4 buffer succeeds (so the claim's InvalidArgument escape does not
apply) yet the final state differs from adding the 8 payloads one at a
time — the storage agrees but the cursor is 4 instead of 0. -/
theorem oversized_extend_not_sequential_at_wrap :
    RB.extend (RB.fresh Nat 4) [1, 2, 3, 4, 5, 6, 7, 8]
        = Sum.inr ([0, 1, 2, 3, 0, 1, 2, 3], ⟨[5, 6, 7, 8], 4, 4⟩) ∧
      RB.addList (RB.fresh Nat 4) [1, 2, 3, 4, 5, 6, 7, 8] = ⟨[5, 6, 7, 8], 4, 0⟩ ∧
      (⟨[5, 6, 7, 8], 4, 4⟩ : RB Nat) ≠ (⟨[5, 6, 7, 8], 4, 0⟩ : RB Nat) := by
  exact ⟨rfl, rfl, by decide⟩

/-- Claim C3 (amended): for a canonical ring state and a batch strictly
larger than the capacity, a successful `extend` leaves the storage
contents and length exactly as if each payload had been added in order;
the cursor too, unless the wrap remainder equals the capacity (pre-cursor
plus batch size equal to twice the capacity), where the cursor is left at
the capacity instead of 0.  (Oversized wraps beyond that fail with an
IndexError partway, not InvalidArgument.) -/
theorem oversized_extend_matches_addList {α : Type} (c T : Nat) (hc : 0 < c) (s : RB α)
    (data : List α) (idx : List Nat) (s' : RB α) (hs : RBCanonical c T s)
    (_hoversized : c < data.length) (h : RB.extend s data = Sum.inr (idx, s')) :
    s'.storage = (RB.addList s data).storage ∧
      s'.storage.length = (RB.addList s data).storage.length ∧
      (s.cursor + data.length ≠ 2 * c → s' = RB.addList s data) := by
  obtain ⟨h1, -, h3, -⟩ := extend_eq_addList c T hc s data idx s' hs h
  exact ⟨h1, by rw [h1], h3⟩

/-- Claim C3 witness: capacity 2, empty buffer, batch `[1,2,3]` of size
3 > 2: `extend` succeeds and the final state equals the element-wise run. -/
theorem oversized_extend_matches_addList_witness :
    (⟨[3, 2], 2, 1⟩ : RB Nat).storage = (RB.addList (RB.fresh Nat 2) [1, 2, 3]).storage ∧
      (⟨[3, 2], 2, 1⟩ : RB Nat).storage.length
          = (RB.addList (RB.fresh Nat 2) [1, 2, 3]).storage.length ∧
      ((RB.fresh Nat 2).cursor + [1, 2, 3].length ≠ 2 * 2 →
        (⟨[3, 2], 2, 1⟩ : RB Nat) = RB.addList (RB.fresh Nat 2) [1, 2, 3]) :=
  oversized_extend_matches_addList 2 0 (by decide) (RB.fresh Nat 2) [1, 2, 3] [0, 1, 0]
    ⟨[3, 2], 2, 1⟩ ⟨rfl, rfl, rfl⟩ (by decide) rfl

/-- Claim C8 counterexample: on a buffer holding two payloads, the integer
index `-1` is negative — so outside `[0, len)` — yet `__getitem__`
succeeds and returns the last payload (Python list indexing wraps negative
indices). -/
theorem getitem_negative_index_succeeds :
    RB.getItem (⟨[10, 20], 4, 2⟩ : RB Nat) (-1) = some 20 := by decide

/-- Claim C8 (amended): `__getitem__` with a single int index fails with
IndexError exactly when the index lies outside `[-len, len)`; a negative
index `-k` with `1 ≤ k ≤ len` succeeds and returns the payload at slot
`len - k`. -/
theorem getitem_failure_characterization :
    (∀ (s : RB Nat) (i : Int), RB.getItem s i = none ↔
        (i < -(s.storage.length : Int) ∨ (s.storage.length : Int) ≤ i)) ∧
      (∀ (s : RB Nat) (k : Nat), 1 ≤ k → k ≤ s.storage.length →
        RB.getItem s (-(k : Int)) = s.storage.get? (s.storage.length - k)) := by
  constructor
  · intro s i
    simp only [RB.getItem]
    split_ifs with h1 h2
    · rw [List.get?_eq_none]
      omega
    · simp only [true_iff]
      omega
    · rename_i h3
      rw [List.get?_eq_none]
      omega
    · rename_i h3
      simp only [true_iff]
      omega
  · intro s k hk1 hk2
    simp only [RB.getItem]
    split_ifs with h1 h2
    · congr 1
      omega
    · exact absurd ⟨by omega, by omega⟩ h2
    · exact absurd (by omega) h1
    · exact absurd (by omega) h1

/-- Claim C8 witness: on a two-payload buffer, index `-2` returns the
payload at slot 0. -/
theorem getitem_failure_characterization_witness :
    RB.getItem (⟨[10, 20], 4, 2⟩ : RB Nat) (-(2 : Nat) : Int)
        = (⟨[10, 20], 4, 2⟩ : RB Nat).storage.get?
            ((⟨[10, 20], 4, 2⟩ : RB Nat).storage.length - 2) :=
  getitem_failure_characterization.2 ⟨[10, 20], 4, 2⟩ 2 (by decide) (by decide)

/-- Claim C1 counterexample: on a fresh capacity-2 prioritized buffer,
`extend(["A"], priority=[2,3])` fails (the priority has length 2, the
written indices length 1), yet afterwards the storage holds the payload
and the cursor has advanced: the ring write happened before the
validation, so the failed call is not all-or-nothing. -/
theorem extend_failure_mutates_ring :
    (PRB.extend (PRB.fresh Nat 2 1 1 0) [42] (some (PVal.arr [2, 3]))).isLeft = true ∧
      (PRB.postState (PRB.extend (PRB.fresh Nat 2 1 1 0) [42]
          (some (PVal.arr [2, 3])))).rb.storage = [42] ∧
      (PRB.postState (PRB.extend (PRB.fresh Nat 2 1 1 0) [42]
          (some (PVal.arr [2, 3])))).rb.cursor = 1 ∧
      (PRB.fresh Nat 2 1 1 0).rb.storage = [] ∧ (PRB.fresh Nat 2 1 1 0).rb.cursor = 0 := by
  exact ⟨rfl, rfl, rfl, rfl, rfl⟩

/-- Claim C1 (amended): whenever `_add_or_extend` (so
`PrioritizedReplayBuffer.add` or `.extend`) raises, both segment trees and
the configuration (alpha, beta, eps) are still in their pre-call state —
every raise happens before the tree writes — but the ring and
`_max_priority` need not be: an explicit priority raises `_max_priority`
before any validation, and a priority-length mismatch is detected only
after the ring write. -/
theorem addOrExtend_failure_preserves_trees :
    ∀ (s : PRB Nat) (data : Sum Nat (List Nat)) (pr : Option PVal) (s' : PRB Nat),
      PRB.addOrExtend s data pr = Sum.inl s' →
      s'.sumTree = s.sumTree ∧ s'.minTree = s.minTree ∧ s'.alpha = s.alpha ∧
        s'.beta = s.beta ∧ s'.eps = s.eps := by
  intro s data pr s' h
  rcases pr with - | p
  · simp only [PRB.addOrExtend] at h
    exact core_failure_preserves_trees _ _ _ _ h
  · rcases p with v | vs
    · simp only [PRB.addOrExtend] at h
      have hres := core_failure_preserves_trees _ _ _ _ h
      exact hres
    · rcases vs with - | ⟨v0, vrest⟩
      · simp only [PRB.addOrExtend] at h
        have hs := Sum.inl.inj h
        subst hs
        exact ⟨rfl, rfl, rfl, rfl, rfl⟩
      · simp only [PRB.addOrExtend] at h
        have hres := core_failure_preserves_trees _ _ _ _ h
        exact hres

/-- Claim C1 witness: the failing `extend` of the counterexample input
leaves both trees and the configuration untouched. -/
theorem addOrExtend_failure_preserves_trees_witness :
    (PRB.postState (PRB.extend (PRB.fresh Nat 2 1 1 0) [42]
          (some (PVal.arr [2, 3])))).sumTree = (PRB.fresh Nat 2 1 1 0).sumTree ∧
      (PRB.postState (PRB.extend (PRB.fresh Nat 2 1 1 0) [42]
          (some (PVal.arr [2, 3])))).minTree = (PRB.fresh Nat 2 1 1 0).minTree ∧
      (PRB.postState (PRB.extend (PRB.fresh Nat 2 1 1 0) [42]
          (some (PVal.arr [2, 3])))).alpha = (PRB.fresh Nat 2 1 1 0).alpha ∧
      (PRB.postState (PRB.extend (PRB.fresh Nat 2 1 1 0) [42]
          (some (PVal.arr [2, 3])))).beta = (PRB.fresh Nat 2 1 1 0).beta ∧
      (PRB.postState (PRB.extend (PRB.fresh Nat 2 1 1 0) [42]
          (some (PVal.arr [2, 3])))).eps = (PRB.fresh Nat 2 1 1 0).eps :=
  addOrExtend_failure_preserves_trees (PRB.fresh Nat 2 1 1 0) (Sum.inr [42])
    (some (PVal.arr [2, 3]))
    (PRB.postState (PRB.extend (PRB.fresh Nat 2 1 1 0) [42] (some (PVal.arr [2, 3])))) rfl

/-- Claim C6 counterexample: constructing a `ReplayBuffer` with capacity 0
or -3, or a `PrioritizedReplayBuffer` with capacity 0 (and valid alpha,
beta), succeeds — no InvalidArgument is raised for a non-positive
capacity. -/
theorem constructor_accepts_nonpositive_capacity :
    (ReplayBufferMk Nat 0).isSome = true ∧ (ReplayBufferMk Nat (-3)).isSome = true ∧
      (PrioritizedReplayBufferMk Nat 0 1 1 0).isSome = true := by
  refine ⟨rfl, rfl, ?_⟩
  simp only [PrioritizedReplayBufferMk]
  rw [if_neg (by norm_num), if_neg (by norm_num)]
  rfl

/-- Claim C6 (amended): construction never validates the capacity —
`ReplayBuffer.__init__` succeeds for every size (non-positive capacities
only fail later, at the first `add`'s modulo), and
`PrioritizedReplayBuffer.__init__` succeeds exactly when `alpha > 0` and
`beta ≥ 0`, regardless of the size. -/
theorem constructor_validation_characterization :
    (∀ size : Int, (ReplayBufferMk Nat size).isSome = true) ∧
      (∀ (size : Int) (a b e : ℝ),
        (PrioritizedReplayBufferMk Nat size a b e).isSome = true ↔ 0 < a ∧ 0 ≤ b) := by
  constructor
  · intro size
    rfl
  · intro size a b e
    simp only [PrioritizedReplayBufferMk]
    split_ifs with h1 h2
    · simp only [Option.isSome_none, Bool.false_eq_true, false_iff]
      rintro ⟨ha, -⟩
      linarith
    · simp only [Option.isSome_none, Bool.false_eq_true, false_iff]
      rintro ⟨-, hb⟩
      linarith
    · simp only [Option.isSome_some, true_iff]
      exact ⟨lt_of_not_le h1, le_of_not_lt h2⟩

/-- Claim C7 counterexample: the base
`PrioritizedReplayBuffer.update_priority` accepts a negative priority —
with an int index and a float priority it reaches the tree writes without
any sign validation, so the call returns instead of failing. -/
theorem base_update_priority_accepts_negative :
    (PRB.updatePriority (PRB.fresh Nat 2 1 1 0) (Sum.inl 0) (PVal.scalar (-1))).isRight
      = true := rfl

/-- Claim C7 (amended): only
`TensorDictPrioritizedReplayBuffer.update_priority` validates
non-negativity — it fails, with nothing mutated, whenever any supplied
priority is negative — while the base
`PrioritizedReplayBuffer.update_priority` accepts any scalar priority,
negative ones included. -/
theorem td_update_priority_rejects_negative :
    (∀ (s : PRB Nat) (idxs : List Nat) (ps : List ℝ), (∃ p ∈ ps, p < 0) →
        PRB.tdUpdatePriority s idxs ps = Sum.inl s) ∧
      (∀ (s : PRB Nat) (i : Nat) (p : ℝ), p < 0 →
        (PRB.updatePriority s (Sum.inl i) (PVal.scalar p)).isRight = true) := by
  constructor
  · intro s idxs ps hneg
    simp only [PRB.tdUpdatePriority]
    rw [if_pos hneg]
  · intro s i p _
    rfl

/-- Claim C7 witness: a negative priority `-1` at index 0 makes the
tensordict wrapper fail with the state unchanged, while the base method
with priority `-5` returns normally. -/
theorem td_update_priority_rejects_negative_witness :
    PRB.tdUpdatePriority (PRB.fresh Nat 2 1 1 0) [0] [-1]
        = Sum.inl (PRB.fresh Nat 2 1 1 0) ∧
      (PRB.updatePriority (PRB.fresh Nat 2 1 1 0) (Sum.inl 1) (PVal.scalar (-5))).isRight
        = true :=
  ⟨td_update_priority_rejects_negative.1 (PRB.fresh Nat 2 1 1 0) [0] [-1]
      ⟨-1, by simp, by norm_num⟩,
    td_update_priority_rejects_negative.2 (PRB.fresh Nat 2 1 1 0) 1 (-5) (by norm_num)⟩

/-- Claim C9: `update_priority(i, p)` with a valid index and a
non-negative priority is idempotent — a second identical call leaves the
whole state (both trees and `_max_priority` included) exactly as after the
first. -/
theorem update_priority_idempotent :
    ∀ (s : PRB Nat) (i : Nat) (p : ℝ) (s1 : PRB Nat), i < s.rb.capacity → 0 ≤ p →
      PRB.updatePriority s (Sum.inl i) (PVal.scalar p) = Sum.inr s1 →
      PRB.updatePriority s1 (Sum.inl i) (PVal.scalar p) = Sum.inr s1 := by
  intro s i p s1 _ _ h
  have hs1 : PRB.upd s [i] (PVal.scalar p) = s1 := Sum.inr.inj h
  subst hs1
  show Sum.inr (PRB.upd (PRB.upd s [i] (PVal.scalar p)) [i] (PVal.scalar p))
      = Sum.inr (PRB.upd s [i] (PVal.scalar p))
  congr 1
  rcases s with ⟨rb0, a0, b0, e0, stree, mtree, mp0⟩
  simp only [PRB.upd, PVal.npMax, PVal.toRho, treeWrite, List.foldl, Option.getD,
    Function.update_idem, max_assoc, max_self]

/-- Claim C9 witness: updating slot 0 of a fresh capacity-2 buffer to
priority 5 twice equals updating it once. -/
theorem update_priority_idempotent_witness :
    PRB.updatePriority (PRB.upd (PRB.fresh Nat 2 1 1 0) [0] (PVal.scalar 5)) (Sum.inl 0)
        (PVal.scalar 5) = Sum.inr (PRB.upd (PRB.fresh Nat 2 1 1 0) [0] (PVal.scalar 5)) :=
  update_priority_idempotent (PRB.fresh Nat 2 1 1 0) 0 5
    (PRB.upd (PRB.fresh Nat 2 1 1 0) [0] (PVal.scalar 5)) (by decide) (by norm_num) rfl

/-- Claim C10: a freshly constructed prioritized buffer has
`_max_priority = 1.0`, and from any state with `_max_priority = 1` an
`add` or `extend` with the priority omitted writes the default stored
priority `(1 + eps) ** alpha` to both trees at every written slot, leaving
`_max_priority` at 1. -/
theorem default_priority_from_unit_max :
    (∀ (c : Nat) (a b e : ℝ), (PRB.fresh Nat c a b e).maxPriority = 1) ∧
      (∀ (s : PRB Nat) (data : Sum Nat (List Nat)) (idx : List Nat) (s' : PRB Nat),
        s.maxPriority = 1 → PRB.addOrExtend s data none = Sum.inr (idx, s') →
        s'.maxPriority = 1 ∧
          ∀ j ∈ idx, s'.sumTree j = some ((1 + s.eps) ^ s.alpha) ∧
            s'.minTree j = some ((1 + s.eps) ^ s.alpha)) := by
  constructor
  · intro c a b e
    rfl
  · intro s data idx s' hmax h
    simp only [PRB.addOrExtend] at h
    rw [hmax] at h
    obtain ⟨hmp, -, -, htrees⟩ := core_scalar_success s ((1 + s.eps) ^ s.alpha) data idx s' h
    exact ⟨hmp.trans hmax, htrees⟩

/-- Claim C10 witness: adding payload 7 with the priority omitted to a
fresh buffer (capacity 2, alpha 1, beta 1, eps 0) writes
`(1 + 0) ** 1` to both trees at slot 0 and keeps `_max_priority = 1`. -/
theorem default_priority_from_unit_max_witness :
    (PRB.postState (PRB.add (PRB.fresh Nat 2 1 1 0) 7 none)).maxPriority = 1 ∧
      ∀ j ∈ [0], (PRB.postState (PRB.add (PRB.fresh Nat 2 1 1 0) 7 none)).sumTree j
          = some ((1 + (PRB.fresh Nat 2 1 1 0).eps) ^ (PRB.fresh Nat 2 1 1 0).alpha) ∧
        (PRB.postState (PRB.add (PRB.fresh Nat 2 1 1 0) 7 none)).minTree j
          = some ((1 + (PRB.fresh Nat 2 1 1 0).eps) ^ (PRB.fresh Nat 2 1 1 0).alpha) :=
  default_priority_from_unit_max.2 (PRB.fresh Nat 2 1 1 0) (Sum.inl 7) [0]
    (PRB.postState (PRB.add (PRB.fresh Nat 2 1 1 0) 7 none)) rfl rfl

/-- The API-built demo buffer equals the literal state. -/
theorem sampleDemo_state (b : ℝ) : sampleDemoBeta b = sampleDemoN b := by
  simp [sampleDemoBeta, sampleDemoN, demoTree, PRB.add, PRB.addOrExtend, PRB.core,
    PRB.coreFinish, PRB.postState, RB.add, PVal.toRho, PVal.npMax, treeWrite,
    RB.fresh, PRB.fresh]

/-- Leaf 0 of the demo tree holds stored priority 1. -/
theorem demoTree_zero : demoTree 0 = some 1 := by
  norm_num [demoTree, Function.update_apply, Real.one_rpow]

/-- Leaf 1 of the demo tree holds stored priority 2. -/
theorem demoTree_one : demoTree 1 = some 2 := by
  norm_num [demoTree, Function.update_apply, Real.rpow_one]

/-- The sum query over the demo buffer is 3. -/
theorem sampleDemo_psum (b : ℝ) : pSumQuery (sampleDemoN b) = 3 := by
  norm_num [pSumQuery, sampleDemoN, Finset.sum_range_succ, demoTree_zero, demoTree_one]

/-- The min query over the demo buffer is 1. -/
theorem sampleDemo_minq (b : ℝ) : minQuery (sampleDemoN b) = some 1 := by
  have hr : List.range 2 = [0, 1] := rfl
  norm_num [minQuery, sampleDemoN, hr, minStep, demoTree_zero, demoTree_one, min_def]

/-- Sampling the demo buffer at mass 3/2 lands (after the clamp) on
slot 1 and returns its payload with weight `(2/1) ** (-beta)`. -/
theorem sampleDemo_eval (b : ℝ) :
    PRB.sampleOne (sampleDemoBeta b) (3 / 2) = some (20, (2 : ℝ) ^ (-b), 1) := by
  rw [sampleDemo_state]
  simp only [PRB.sampleOne]
  rw [sampleDemo_psum, sampleDemo_minq]
  norm_num [scanLB, sampleDemoN, demoTree_zero, demoTree_one,
    List.get?_cons_zero, List.get?_cons_succ]

/-- The min-tree range fold is a lower bound on every written leaf it
covers (and on the accumulator). -/
theorem foldl_minStep_le :
    ∀ (l : List Nat) (f : Nat → Option ℝ) (acc : Option ℝ) (m : ℝ),
      l.foldl (fun a i => minStep a (f i)) acc = some m →
      (∀ j ∈ l, ∀ v, f j = some v → m ≤ v) ∧ (∀ a, acc = some a → m ≤ a) := by
  intro l
  induction l with
  | nil =>
    intro f acc m h
    simp only [List.foldl] at h
    refine ⟨fun j hj => absurd hj (List.not_mem_nil j), fun a ha => ?_⟩
    rw [ha] at h
    exact le_of_eq (Option.some.inj h).symm
  | cons i t ih =>
    intro f acc m h
    simp only [List.foldl] at h
    obtain ⟨ht, hacc⟩ := ih f (minStep acc (f i)) m h
    constructor
    · intro j hj v hv
      rcases List.mem_cons.mp hj with hji | hjt
      · subst hji
        rcases hae : acc with - | a
        · refine hacc v ?_
          rw [hae, hv]
          exact rfl
        · have hm := hacc (min a v) (by rw [hae, hv]; exact rfl)
          exact hm.trans (min_le_right a v)
      · exact ht j hjt v hv
    · intro a ha
      rcases hfe : f i with - | v
      · refine hacc a ?_
        rw [hfe, ha]
        exact rfl
      · have hm := hacc (min a v) (by rw [ha, hfe]; exact rfl)
        exact hm.trans (min_le_left a v)

/-- The min-tree range fold is defined (not plus infinity) as soon as one
covered leaf is written. -/
theorem foldl_minStep_isSome :
    ∀ (l : List Nat) (f : Nat → Option ℝ) (acc : Option ℝ),
      ((∃ j ∈ l, (f j).isSome = true) ∨ acc.isSome = true) →
      (l.foldl (fun a i => minStep a (f i)) acc).isSome = true := by
  intro l
  induction l with
  | nil =>
    intro f acc h
    rcases h with ⟨j, hj, -⟩ | h
    · exact absurd hj (List.not_mem_nil j)
    · simpa using h
  | cons i t ih =>
    intro f acc h
    simp only [List.foldl]
    apply ih
    rcases h with ⟨j, hj, hjs⟩ | hs
    · rcases List.mem_cons.mp hj with hji | hjt
      · right
        subst hji
        obtain ⟨v, hv⟩ := Option.isSome_iff_exists.mp hjs
        rw [hv]
        rcases acc with - | a
        · rfl
        · rfl
      · exact Or.inl ⟨j, hjt, hjs⟩
    · right
      rcases hfe : f i with - | v
      · exact hs
      · rcases acc with - | a
        · rfl
        · rfl

/-- A positive sum query means some leaf of the sum tree is written. -/
theorem psum_pos_some_leaf {s : PRB Nat} (h : ¬ pSumQuery s ≤ 0) :
    ∃ j ∈ List.range s.rb.capacity, ((s.sumTree j).isSome = true) := by
  have hne : ∑ i in Finset.range s.rb.capacity, ((s.sumTree i).getD 0) ≠ 0 := by
    intro hcon
    exact h (le_of_eq hcon)
  obtain ⟨j, hj, hjne⟩ := Finset.exists_ne_zero_of_sum_ne_zero hne
  refine ⟨j, List.mem_range.mpr (Finset.mem_range.mp hj), ?_⟩
  rcases hse : s.sumTree j with - | v
  · rw [hse] at hjne
    simp at hjne
  · rfl

/-- Claim C4 (amended): on any buffer whose trees are written together
(as every API write does), whose occupancy does not exceed the capacity
and whose occupied slots are all written, a successful `_sample` returns
the weight `(sum_tree[i] / p_min) ** (-beta)` for the clamped slot `i`,
and this weight satisfies `0 < w ≤ 1`; when `beta > 0` it equals 1 exactly
at slots holding the minimum stored priority, but when `beta = 0` every
weight is 1 regardless of the slot's priority. -/
theorem sample_weight_formula_and_bounds :
    ∀ (s : PRB Nat) (mass : ℝ) (a : Nat) (w : ℝ) (i : Nat),
      s.sumTree = s.minTree →
      s.rb.storage.length ≤ s.rb.capacity →
      (∀ j, j < s.rb.storage.length → (s.sumTree j).isSome = true) →
      0 ≤ s.beta →
      PRB.sampleOne s mass = some (a, w, i) →
      (minQuery s).isSome = true ∧
        ∀ m, minQuery s = some m →
          w = (((s.sumTree i).getD 0) / m) ^ (-s.beta) ∧ 0 < w ∧ w ≤ 1 ∧
            (0 < s.beta → (w = 1 ↔ (s.sumTree i).getD 0 = m)) := by
  intro s mass a w i hcoup hlen hwritten hbeta h
  simp only [PRB.sampleOne] at h
  split at h
  · exact Option.noConfusion h
  · rename_i hpsum
    split at h
    · exact Option.noConfusion h
    · rename_i hpmin
      split at h
      · exact Option.noConfusion h
      · rename_i a0 hget
        simp only [Option.some.injEq, Prod.mk.injEq] at h
        obtain ⟨ha0, hw, hi⟩ := h
        subst hi
        subst hw
        have hsome : (minQuery s).isSome = true := by
          obtain ⟨j0, hj0mem, hj0s⟩ := psum_pos_some_leaf hpsum
          exact foldl_minStep_isSome (List.range s.rb.capacity) s.minTree none
            (Or.inl ⟨j0, hj0mem, by rw [← hcoup]; exact hj0s⟩)
        refine ⟨hsome, ?_⟩
        intro m hm
        have hm0 : 0 < m := by
          rw [hm] at hpmin
          simp only [not_le] at hpmin
          exact hpmin
        obtain ⟨hilt, -⟩ := List.get?_eq_some.mp hget
        obtain ⟨v, hv⟩ := Option.isSome_iff_exists.mp
          (hwritten (min (scanLB (fun i => (s.sumTree i).getD 0) s.rb.capacity mass 0)
            (s.rb.storage.length - 1)) hilt)
        have hmlev := (foldl_minStep_le (List.range s.rb.capacity) s.minTree none m hm).1
          (min (scanLB (fun i => (s.sumTree i).getD 0) s.rb.capacity mass 0)
            (s.rb.storage.length - 1))
          (List.mem_range.mpr (lt_of_lt_of_le hilt hlen)) v (by rw [← hcoup]; exact hv)
        have hxv : ((s.sumTree (min (scanLB (fun i => (s.sumTree i).getD 0)
            s.rb.capacity mass 0) (s.rb.storage.length - 1))).getD 0) = v := by
          rw [hv]
          rfl
        have hxle : m ≤ ((s.sumTree (min (scanLB (fun i => (s.sumTree i).getD 0)
            s.rb.capacity mass 0) (s.rb.storage.length - 1))).getD 0) := by
          rw [hxv]
          exact hmlev
        have hx1 : 1 ≤ ((s.sumTree (min (scanLB (fun i => (s.sumTree i).getD 0)
            s.rb.capacity mass 0) (s.rb.storage.length - 1))).getD 0) / m :=
          (one_le_div hm0).mpr hxle
        refine ⟨by simp only [hm], ?_, ?_, ?_⟩
        · simp only [hm]
          exact Real.rpow_pos_of_pos (lt_of_lt_of_le zero_lt_one hx1) _
        · simp only [hm]
          exact Real.rpow_le_one_of_one_le_of_nonpos hx1 (neg_nonpos.mpr hbeta)
        · intro hbpos
          simp only [hm]
          constructor
          · intro hw1
            by_contra hne
            have hlt : m < ((s.sumTree (min (scanLB (fun i => (s.sumTree i).getD 0)
                s.rb.capacity mass 0) (s.rb.storage.length - 1))).getD 0) :=
              lt_of_le_of_ne hxle (Ne.symm hne)
            have h1lt : 1 < ((s.sumTree (min (scanLB (fun i => (s.sumTree i).getD 0)
                s.rb.capacity mass 0) (s.rb.storage.length - 1))).getD 0) / m :=
              (one_lt_div hm0).mpr hlt
            have hwlt := Real.rpow_lt_one_of_one_lt_of_neg h1lt
              (by linarith : -s.beta < 0)
            rw [hw1] at hwlt
            exact lt_irrefl _ hwlt
          · intro hxm
            rw [hxm]
            rw [div_self (ne_of_gt hm0)]
            rw [Real.one_rpow]

/-- Claim C4 counterexample: with `beta = 0` (a value the constructor
accepts), a successful sample of the demo buffer returns weight 1 at slot
1, whose stored priority 2 is not the min-tree minimum 1 — so `w = 1`
does not hold exactly at minimum-priority slots. -/
theorem sample_weight_one_at_nonminimum_slot :
    PRB.sampleOne (sampleDemoBeta 0) (3 / 2) = some (20, 1, 1) ∧
      minQuery (sampleDemoBeta 0) = some 1 ∧
      ((sampleDemoBeta 0).sumTree 1).getD 0 = 2 ∧ (2 : ℝ) ≠ 1 := by
  refine ⟨?_, ?_, ?_, by norm_num⟩
  · have heval := sampleDemo_eval 0
    rw [neg_zero, Real.rpow_zero] at heval
    exact heval
  · rw [sampleDemo_state]
    exact sampleDemo_minq 0
  · rw [sampleDemo_state]
    norm_num [sampleDemoN, demoTree_one]

/-- Claim C4 witness: the demo buffer with `beta = 1` sampled at mass
3/2: weight `2 ** (-1)`, which matches the formula and the bounds. -/
theorem sample_weight_formula_and_bounds_witness :
    (minQuery (sampleDemoBeta 1)).isSome = true ∧
      ∀ m, minQuery (sampleDemoBeta 1) = some m →
        (2 : ℝ) ^ (-(1 : ℝ))
            = (((sampleDemoBeta 1).sumTree 1).getD 0 / m) ^ (-(sampleDemoBeta 1).beta) ∧
          0 < (2 : ℝ) ^ (-(1 : ℝ)) ∧ (2 : ℝ) ^ (-(1 : ℝ)) ≤ 1 ∧
          (0 < (sampleDemoBeta 1).beta →
            ((2 : ℝ) ^ (-(1 : ℝ)) = 1 ↔ ((sampleDemoBeta 1).sumTree 1).getD 0 = m)) :=
  sample_weight_formula_and_bounds (sampleDemoBeta 1) (3 / 2) 20 ((2 : ℝ) ^ (-(1 : ℝ))) 1
    (by rw [sampleDemo_state]; exact rfl)
    (by rw [sampleDemo_state]; norm_num [sampleDemoN])
    (by
      rw [sampleDemo_state]
      intro j hj
      simp only [sampleDemoN] at hj ⊢
      rcases j with - | j
      · rw [demoTree_zero]
        rfl
      · rcases j with - | j
        · rw [demoTree_one]
          rfl
        · simp at hj
          omega)
    (by rw [sampleDemo_state]; norm_num [sampleDemoN])
    (sampleDemo_eval 1)
